import Mathlib

/-!
Verification of the `Vault` component of the llm-guard stateless-anonymization
repository (`src/llm_guard/vault.py`).

The vault stores an ordered sequence of `(placeholder, original_value)` string
pairs in the Python list `self._tuples`, with every public method's body
executed under `self._lock`.  Because each method holds the lock for its whole
body, a method invocation acts on the list as one step; the sequential model
below therefore passes the list value (`Vault.State`) explicitly through each
operation, translating the body of each method from the source.

A second, heap-based model (`Heap`, `HVault` below) makes Python's reference
semantics explicit; it is used for the aliasing properties of the constructor
and of the snapshots returned by `get` and `get_and_clear`, which a
value-level model cannot distinguish.
-/

set_option autoImplicit false

namespace Vault

/-- An entry of the vault: a `(placeholder, original_value)` pair of strings,
as stored by `Vault._tuples` (`vault.py` line 18, typed `List[Tuple[str, str]]`
at line 33). -/
abbrev Entry := String × String

/-- The value of the Python list `self._tuples`: an ordered sequence of
entries. -/
abbrev State := List Entry

/-- `Vault.__init__(self, tuples=None)` (`vault.py` lines 14-19): the initial
value of `self._tuples` is the caller's list when one is supplied, and a fresh
empty list otherwise. -/
def init (tuples : Option (List Entry)) : State :=
  tuples.getD []

/-- `Vault.append(self, new_tuple)` (`vault.py` lines 21-23):
`self._tuples.append(new_tuple)` adds the one element at the end. -/
def append (v : State) (new_tuple : Entry) : State :=
  v ++ [new_tuple]

/-- `Vault.extend(self, new_tuples)` (`vault.py` lines 25-27):
`self._tuples.extend(new_tuples)` adds all the elements at the end, in
order. -/
def extend (v : State) (new_tuples : List Entry) : State :=
  v ++ new_tuples

/-- The error raised by `list.remove` when no equal element exists (Python's
`ValueError`, the NotFound condition of the spec). -/
inductive VaultError where
  | notFound
deriving DecidableEq, Repr

/-- Python's `list.remove(x)`: delete the first element equal to `x`; `none`
when no element is equal (the call raises). -/
def removeFirst : List Entry → Entry → Option (List Entry)
  | [], _ => none
  | x :: xs, e => if x = e then some xs else (removeFirst xs e).map fun ys => x :: ys

/-- `Vault.remove(self, tuple_to_remove)` (`vault.py` lines 29-31):
`self._tuples.remove(tuple_to_remove)`.  On success the list loses its first
element equal to the argument; on failure the exception propagates and the
list is left as it was. -/
def remove (v : State) (tuple_to_remove : Entry) : State × Option VaultError :=
  match removeFirst v tuple_to_remove with
  | some v' => (v', none)
  | none => (v, some VaultError.notFound)

/-- `Vault.get(self)` (`vault.py` lines 33-35): returns `self._tuples.copy()`,
a snapshot holding the current list value. -/
def get (v : State) : List Entry :=
  v

/-- `Vault.clear(self)` (`vault.py` lines 37-40): `self._tuples.clear()`
empties the list. -/
def clear (_ : State) : State :=
  []

/-- `Vault.get_and_clear(self)` (`vault.py` lines 42-55): under one lock
acquisition, copy `self._tuples`, clear it, and return the copy.  The result
is the returned snapshot paired with the new list value. -/
def get_and_clear (v : State) : List Entry × State :=
  (v, [])

/-- `Vault.placeholder_exists(self, placeholder)` (`vault.py` lines 57-62):
scan the list; return `True` at the first entry whose first component equals
`placeholder`, `False` after the loop otherwise. -/
def placeholder_exists (v : State) (placeholder : String) : Bool :=
  match v with
  | [] => false
  | (entity_placeholder, _) :: rest =>
    if placeholder = entity_placeholder then true
    else placeholder_exists rest placeholder

/-- One mutating call recorded in a history: `append` with one entry or
`extend` with a list of entries. -/
inductive WriteOp where
  | append (e : Entry)
  | extend (es : List Entry)

/-- Apply one recorded call to the vault state. -/
def applyOp (v : State) : WriteOp → State
  | .append e => Vault.append v e
  | .extend es => Vault.extend v es

/-- Apply a history of `append`/`extend` calls in order. -/
def runOps (v : State) (ops : List WriteOp) : State :=
  ops.foldl applyOp v

/-- The entries a recorded call supplies, in the order it supplies them. -/
def opEntries : WriteOp → List Entry
  | .append e => [e]
  | .extend es => es

/-- The entries a history supplies, in call order. -/
def opsEntries : List WriteOp → List Entry
  | [] => []
  | op :: rest => opEntries op ++ opsEntries rest

end Vault

/-- Concrete entry used in witnesses and counterexamples. -/
def eA : Vault.Entry := ("[REDACTED_PERSON_1]", "John Doe")

/-- Second concrete entry used in witnesses. -/
def eB : Vault.Entry := ("[REDACTED_PERSON_2]", "Jane Doe")

/-- C1: `get_and_clear` returns exactly the snapshot `get` would return in the
same state, leaves the vault in the state `clear` produces (empty), and on the
empty vault returns the empty sequence; it is total, hence never fails. -/
theorem C1_get_and_clear_spec (v : Vault.State) :
    (Vault.get_and_clear v).1 = Vault.get v ∧
    (Vault.get_and_clear v).2 = Vault.clear v ∧
    (Vault.get_and_clear ([] : Vault.State)).1 = [] :=
  ⟨rfl, rfl, rfl⟩

/-- C9: `clear` always yields the empty sequence, is idempotent, clearing the
empty vault is a no-op, and `get` after `clear` is empty; it is total, hence
never fails. -/
theorem C9_clear_idempotent (v : Vault.State) :
    Vault.clear v = [] ∧
    Vault.clear (Vault.clear v) = Vault.clear v ∧
    Vault.get (Vault.clear v) = [] ∧
    Vault.clear ([] : Vault.State) = [] :=
  ⟨rfl, rfl, rfl, rfl⟩

/-- C10: no uniqueness constraint: appending any two entries — in particular
two with the same placeholder, the same value, or fully equal — always
succeeds, both are retained in order, and the length grows by exactly 2. -/
theorem C10_duplicate_tolerance (v : Vault.State) (e₁ e₂ : Vault.Entry) :
    Vault.get (Vault.append (Vault.append v e₁) e₂) = v ++ [e₁, e₂] ∧
    (Vault.append (Vault.append v e₁) e₂).length = v.length + 2 := by
  constructor
  · simp [Vault.get, Vault.append]
  · simp [Vault.append]

/-- Folding `append` over a list of entries concatenates them at the end. -/
theorem foldl_append_eq (es : List Vault.Entry) (v : Vault.State) :
    es.foldl Vault.append v = v ++ es := by
  induction es generalizing v with
  | nil => simp
  | cons e es ih => simp [Vault.append, ih]

/-- C8: `extend` produces the same state as appending each element in order
(it equals the left fold of `append`), and extending by the empty sequence is
a no-op. -/
theorem C8_extend_is_repeated_append (v : Vault.State) (es : List Vault.Entry) :
    Vault.extend v es = es.foldl Vault.append v ∧
    Vault.extend v [] = v := by
  constructor
  · rw [foldl_append_eq]; rfl
  · simp [Vault.extend]

/-- Running a history of write calls appends exactly the entries the calls
supplied, in call order. -/
theorem runOps_eq (ops : List Vault.WriteOp) (v : Vault.State) :
    Vault.runOps v ops = v ++ Vault.opsEntries ops := by
  induction ops generalizing v with
  | nil => simp [Vault.runOps, Vault.opsEntries]
  | cons op rest ih =>
    cases op with
    | append e =>
      simp [Vault.runOps, Vault.opsEntries, Vault.opEntries, Vault.applyOp,
        Vault.append] at *
      simp [ih]
    | extend es =>
      simp [Vault.runOps, Vault.opsEntries, Vault.opEntries, Vault.applyOp,
        Vault.extend] at *
      simp [ih]

/-- C3: for every (possibly pre-seeded) initial vault and every history of
`append`/`extend` calls, `get` returns the initial entries followed by the
supplied entries in exactly call order. -/
theorem C3_insertion_order (tuples : Option (List Vault.Entry))
    (ops : List Vault.WriteOp) :
    Vault.get (Vault.runOps (Vault.init tuples) ops) =
      Vault.init tuples ++ Vault.opsEntries ops := by
  rw [Vault.get, runOps_eq]

/-- C7: `placeholder_exists` is true iff some stored entry has the given
string as its placeholder (first) field; on the empty vault it is false.  It
is a total function of the state and returns the state unchanged by not
taking ownership of it, hence never fails and never mutates the vault. -/
theorem C7_placeholder_exists_iff (v : Vault.State) (p : String) :
    (Vault.placeholder_exists v p = true ↔ ∃ e ∈ v, e.1 = p) ∧
    Vault.placeholder_exists [] p = false := by
  refine ⟨?_, rfl⟩
  induction v with
  | nil => simp [Vault.placeholder_exists]
  | cons x xs ih =>
    obtain ⟨ep, val⟩ := x
    by_cases hp : p = ep
    · subst hp
      simp [Vault.placeholder_exists]
    · simp only [Vault.placeholder_exists, if_neg hp, ih, List.mem_cons]
      constructor
      · rintro ⟨e, he, hep⟩
        exact ⟨e, Or.inr he, hep⟩
      · rintro ⟨e, he | he, hep⟩
        · subst he
          exact absurd hep.symm hp
        · exact ⟨e, he, hep⟩

/-- `removeFirst` finds nothing exactly when no stored entry equals the
argument. -/
theorem removeFirst_eq_none_iff (v : Vault.State) (e : Vault.Entry) :
    Vault.removeFirst v e = none ↔ e ∉ v := by
  induction v with
  | nil => simp [Vault.removeFirst]
  | cons x xs ih =>
    by_cases hx : x = e
    · subst hx
      simp [Vault.removeFirst]
    · simp [Vault.removeFirst, hx, ih, Ne.symm hx]

/-- When some stored entry equals the argument, `removeFirst` deletes exactly
the earliest equal occurrence. -/
theorem removeFirst_eq_some (v : Vault.State) (e : Vault.Entry) (he : e ∈ v) :
    ∃ l r, v = l ++ e :: r ∧ e ∉ l ∧ Vault.removeFirst v e = some (l ++ r) := by
  induction v with
  | nil => cases he
  | cons x xs ih =>
    by_cases hx : x = e
    · subst hx
      exact ⟨[], xs, rfl, by simp, by simp [Vault.removeFirst]⟩
    · have hxs : e ∈ xs := by
        cases List.mem_cons.mp he with
        | inl h => exact absurd h.symm hx
        | inr h => exact h
      obtain ⟨l, r, hv, hnl, hrm⟩ := ih hxs
      refine ⟨x :: l, r, by simp [hv], ?_, ?_⟩
      · simp [hnl, Ne.symm hx]
      · simp [Vault.removeFirst, hx, hrm]

/-- C5: `remove` signals NotFound exactly when no stored entry equals the
argument (comparison is value equality of both fields), and on that failure
the stored sequence is exactly what it was before the call. -/
theorem C5_remove_notfound (v : Vault.State) (e : Vault.Entry) :
    ((Vault.remove v e).2 = some Vault.VaultError.notFound ↔ e ∉ v) ∧
    (e ∉ v → (Vault.remove v e).1 = v) := by
  constructor
  · constructor
    · intro h
      rw [← removeFirst_eq_none_iff]
      unfold Vault.remove at h
      cases hrm : Vault.removeFirst v e with
      | none => rfl
      | some v' => rw [hrm] at h; simp at h
    · intro h
      have hrm := (removeFirst_eq_none_iff v e).mpr h
      simp [Vault.remove, hrm]
  · intro h
    have hrm := (removeFirst_eq_none_iff v e).mpr h
    simp [Vault.remove, hrm]

/-- Concrete run of C5: removing an absent entry from a one-entry vault
signals NotFound and leaves the sequence unchanged. -/
theorem C5_remove_notfound_witness :
    (Vault.remove [eA] eB).2 = some Vault.VaultError.notFound ∧
    (Vault.remove [eA] eB).1 = [eA] := by
  have hne : eB ∉ [eA] := by decide
  exact ⟨(C5_remove_notfound [eA] eB).1.mpr hne, (C5_remove_notfound [eA] eB).2 hne⟩

/-- C6: when some stored entry equals the argument, `remove` succeeds (no
error), deletes exactly the earliest equal occurrence leaving every other
entry in order, and the entry count decreases by exactly 1. -/
theorem C6_remove_present (v : Vault.State) (e : Vault.Entry) (he : e ∈ v) :
    (Vault.remove v e).2 = none ∧
    (Vault.remove v e).1.length + 1 = v.length ∧
    ∃ l r, v = l ++ e :: r ∧ e ∉ l ∧ (Vault.remove v e).1 = l ++ r := by
  obtain ⟨l, r, hv, hnl, hrm⟩ := removeFirst_eq_some v e he
  refine ⟨by simp [Vault.remove, hrm], ?_, l, r, hv, hnl, by simp [Vault.remove, hrm]⟩
  have h1 : (Vault.remove v e).1 = l ++ r := by simp [Vault.remove, hrm]
  rw [h1, hv]
  simp
  omega

/-- Concrete run of C6: removing an entry present twice deletes exactly the
earliest occurrence and decreases the count by 1. -/
theorem C6_remove_present_witness :
    (Vault.remove [eA, eB, eA] eA).2 = none ∧
    (Vault.remove [eA, eB, eA] eA).1.length + 1 = 3 := by
  have hm : eA ∈ [eA, eB, eA] := by decide
  have h := C6_remove_present [eA, eB, eA] eA hm
  exact ⟨h.1, h.2.1⟩

/-- A reference to a Python list object. -/
abbrev Ref := Nat

/-- A heap of Python list objects holding vault entries: `size` references
have been allocated, and `cells r` is the current contents of the list object
referred to by `r`. -/
structure Heap where
  size : Nat
  cells : Ref → List Vault.Entry

/-- Read the contents of the list object `r` refers to. -/
def Heap.read (h : Heap) (r : Ref) : List Vault.Entry :=
  h.cells r

/-- Overwrite the contents of the list object `r` refers to (in-place list
mutation: every alias of `r` sees the new contents). -/
def Heap.write (h : Heap) (r : Ref) (l : List Vault.Entry) : Heap :=
  ⟨h.size, fun i => if i = r then l else h.cells i⟩

/-- Allocate a fresh list object with contents `l`, returning the new heap and
the fresh reference. -/
def Heap.alloc (h : Heap) (l : List Vault.Entry) : Heap × Ref :=
  (⟨h.size + 1, fun i => if i = h.size then l else h.cells i⟩, h.size)

/-- Python `lst.append(e)` through a reference: in-place mutation of the
referred list object. -/
def listAppendAt (h : Heap) (r : Ref) (e : Vault.Entry) : Heap :=
  h.write r (h.read r ++ [e])

/-- Python `lst.copy()` through a reference: allocate a fresh list object
holding the same contents, returning its reference. -/
def listCopyAt (h : Heap) (r : Ref) : Heap × Ref :=
  h.alloc (h.read r)

/-- The `Vault` object in the reference-semantics model: its `_tuples`
attribute is a reference to a list object in the heap. -/
structure HVault where
  tuples : Ref

/-- `Vault.__init__(self, tuples=None)` (`vault.py` lines 14-19) with
reference semantics: with no argument, `tuples = []` allocates a fresh empty
list; with a caller-supplied list, `self._tuples = tuples` stores the
caller's reference itself — no copy is made. -/
def HVault.init (h : Heap) (tuples : Option Ref) : Heap × HVault :=
  match tuples with
  | none =>
    let hr := h.alloc []
    (hr.1, ⟨hr.2⟩)
  | some r => (h, ⟨r⟩)

/-- `Vault.append` (`vault.py` lines 21-23) with reference semantics:
in-place `self._tuples.append(new_tuple)`. -/
def HVault.append (h : Heap) (v : HVault) (new_tuple : Vault.Entry) : Heap :=
  listAppendAt h v.tuples new_tuple

/-- `Vault.get` (`vault.py` lines 33-35) with reference semantics: return
`self._tuples.copy()`, a reference to a freshly allocated copy. -/
def HVault.get (h : Heap) (v : HVault) : Heap × Ref :=
  listCopyAt h v.tuples

/-- Python `lst.extend(es)` through a reference: in-place mutation of the
referred list object. -/
def listExtendAt (h : Heap) (r : Ref) (es : List Vault.Entry) : Heap :=
  h.write r (h.read r ++ es)

/-- Python `lst.remove(e)` through a reference: in-place deletion of the first
equal element; when none is equal the call raises and the object is left
untouched. -/
def listRemoveAt (h : Heap) (r : Ref) (e : Vault.Entry) : Heap :=
  match Vault.removeFirst (h.read r) e with
  | some l => h.write r l
  | none => h

/-- Python `lst.clear()` through a reference: in-place mutation of the
referred list object to the empty list. -/
def listClearAt (h : Heap) (r : Ref) : Heap :=
  h.write r []

/-- `Vault.get_and_clear` (`vault.py` lines 42-55) with reference semantics:
`vault_data = self._tuples.copy()` allocates a fresh copy, then
`self._tuples.clear()` empties the internal list in place, and the copy's
reference is returned. -/
def HVault.get_and_clear (h : Heap) (v : HVault) : Heap × Ref :=
  (listClearAt (listCopyAt h v.tuples).1 v.tuples, (listCopyAt h v.tuples).2)

/-- One public vault method call in the reference-semantics model. -/
inductive HOp where
  | append (e : Vault.Entry)
  | extend (es : List Vault.Entry)
  | remove (e : Vault.Entry)
  | clear
  | get
  | get_and_clear

/-- The heap effect of one vault method call (the value a call returns plays
no role in how the heap changes). -/
def stepH (h : Heap) (v : HVault) : HOp → Heap
  | .append e => HVault.append h v e
  | .extend es => listExtendAt h v.tuples es
  | .remove e => listRemoveAt h v.tuples e
  | .clear => listClearAt h v.tuples
  | .get => (HVault.get h v).1
  | .get_and_clear => (HVault.get_and_clear h v).1

/-- The heap after a sequence of vault method calls. -/
def runH (h : Heap) (v : HVault) : List HOp → Heap
  | [] => h
  | op :: rest => runH (stepH h v op) v rest

/-- Frame property of one vault call: every list object other than the
vault's own `_tuples` object (and not yet-unallocated) keeps its contents,
and the allocation count never shrinks. -/
theorem stepH_frame (h : Heap) (v : HVault) (op : HOp) (r : Ref)
    (hr : r < h.size) (hne : r ≠ v.tuples) :
    Heap.read (stepH h v op) r = Heap.read h r ∧ h.size ≤ (stepH h v op).size := by
  have hrs : r ≠ h.size := Nat.ne_of_lt hr
  cases op with
  | append e =>
    exact ⟨by simp [stepH, HVault.append, listAppendAt, Heap.write, Heap.read, hne],
      le_refl _⟩
  | extend es =>
    exact ⟨by simp [stepH, listExtendAt, Heap.write, Heap.read, hne], le_refl _⟩
  | remove e =>
    cases hrm : Vault.removeFirst (Heap.read h v.tuples) e with
    | none =>
      have hstep : stepH h v (HOp.remove e) = h := by
        simp [stepH, listRemoveAt, hrm]
      rw [hstep]
      exact ⟨rfl, le_refl _⟩
    | some l =>
      have hstep : stepH h v (HOp.remove e) = h.write v.tuples l := by
        simp [stepH, listRemoveAt, hrm]
      rw [hstep]
      exact ⟨by simp [Heap.write, Heap.read, hne], by simp [Heap.write]⟩
  | clear =>
    exact ⟨by simp [stepH, listClearAt, Heap.write, Heap.read, hne], le_refl _⟩
  | get =>
    refine ⟨by simp [stepH, HVault.get, listCopyAt, Heap.alloc, Heap.read, hrs], ?_⟩
    show h.size ≤ h.size + 1
    omega
  | get_and_clear =>
    refine ⟨by simp [stepH, HVault.get_and_clear, listClearAt, listCopyAt,
      Heap.alloc, Heap.write, Heap.read, hne, hrs], ?_⟩
    show h.size ≤ h.size + 1
    omega

/-- Frame property of a sequence of vault calls: a valid list object distinct
from the vault's own `_tuples` object keeps its contents across any sequence
of vault method calls. -/
theorem runH_frame (ops : List HOp) (h : Heap) (v : HVault) (r : Ref)
    (hr : r < h.size) (hne : r ≠ v.tuples) :
    Heap.read (runH h v ops) r = Heap.read h r := by
  induction ops generalizing h with
  | nil => rfl
  | cons op rest ih =>
    have hs := stepH_frame h v op r hr hne
    calc Heap.read (runH h v (op :: rest)) r
        = Heap.read (runH (stepH h v op) v rest) r := rfl
      _ = Heap.read (stepH h v op) r := ih (stepH h v op) (lt_of_lt_of_le hr hs.2)
      _ = Heap.read h r := hs.1

/-- The heap in which a caller has allocated one empty list, at reference 0. -/
def callerHeap : Heap :=
  ((⟨0, fun _ => []⟩ : Heap).alloc []).1

/-- The caller's reference to that list. -/
def callerRef : Ref :=
  ((⟨0, fun _ => []⟩ : Heap).alloc []).2

/-- A vault constructed pre-seeded with the caller's list. -/
def seededVault : HVault :=
  (HVault.init callerHeap (some callerRef)).2

/-- The heap after the caller appends an entry to their own list, through
their own reference, after constructing the vault. -/
def heapAfterCallerMutation : Heap :=
  listAppendAt (HVault.init callerHeap (some callerRef)).1 callerRef eA

/-- Counterexample to C4: a vault constructed pre-seeded with a
caller-supplied list stores the caller's reference itself, so an external
alias of the internal sequence exists, and the caller's mutation of their own
list changes what the vault stores — before the mutation the vault's sequence
is empty, after it the vault's sequence (and hence `get`'s snapshot) contains
the appended entry. -/
theorem C4_counterexample :
    seededVault.tuples = callerRef ∧
    Heap.read (HVault.init callerHeap (some callerRef)).1 seededVault.tuples = [] ∧
    Heap.read heapAfterCallerMutation seededVault.tuples = [eA] ∧
    Heap.read (HVault.get heapAfterCallerMutation seededVault).1
      (HVault.get heapAfterCallerMutation seededVault).2 = [eA] :=
  ⟨rfl, rfl, rfl, rfl⟩

/-- C4 amended: snapshots are disconnected copies, for `get` and for
`get_and_clear` alike.  For any valid internal reference: both operations
return a reference distinct from the vault's internal one; each snapshot
holds exactly the sequence at snapshot time (for `get_and_clear`, the
pre-clear sequence, while the vault itself is left empty); any sequence of
subsequent vault method calls leaves either snapshot's contents equal to the
sequence at snapshot time; any in-place mutation of either snapshot (an
arbitrary overwrite of its contents) leaves the vault's sequence unchanged;
and a vault constructed without a seed allocates a fresh internal list, so
no reference the caller already held aliases it.  (The pre-seeding aliasing
refuted above is excluded from the amended claim.) -/
theorem C4_snapshot_disconnected (h : Heap) (v : HVault)
    (l : List Vault.Entry) (ops : List HOp) (hv : v.tuples < h.size) :
    ((HVault.get h v).2 ≠ v.tuples ∧ (HVault.get_and_clear h v).2 ≠ v.tuples) ∧
    Heap.read (HVault.get h v).1 (HVault.get h v).2 = Heap.read h v.tuples ∧
    (Heap.read (HVault.get_and_clear h v).1 (HVault.get_and_clear h v).2 =
        Heap.read h v.tuples ∧
      Heap.read (HVault.get_and_clear h v).1 v.tuples = []) ∧
    Heap.read (runH (HVault.get h v).1 v ops) (HVault.get h v).2 =
      Heap.read h v.tuples ∧
    Heap.read (runH (HVault.get_and_clear h v).1 v ops)
      (HVault.get_and_clear h v).2 = Heap.read h v.tuples ∧
    Heap.read (Heap.write (HVault.get h v).1 (HVault.get h v).2 l) v.tuples =
      Heap.read h v.tuples ∧
    Heap.read (Heap.write (HVault.get_and_clear h v).1
      (HVault.get_and_clear h v).2 l) v.tuples =
      Heap.read (HVault.get_and_clear h v).1 v.tuples ∧
    (∀ r, r < h.size → (HVault.init h none).2.tuples ≠ r) := by
  have hne : h.size ≠ v.tuples := Nat.ne_of_gt hv
  refine ⟨⟨?_, ?_⟩, ?_, ⟨?_, ?_⟩, ?_, ?_, ?_, ?_, ?_⟩
  · simpa [HVault.get, listCopyAt, Heap.alloc] using hne
  · simpa [HVault.get_and_clear, listCopyAt, Heap.alloc] using hne
  · simp [HVault.get, listCopyAt, Heap.alloc, Heap.read]
  · simp [HVault.get_and_clear, listClearAt, listCopyAt, Heap.alloc,
      Heap.write, Heap.read, hne]
  · simp [HVault.get_and_clear, listClearAt, listCopyAt, Heap.alloc,
      Heap.write, Heap.read]
  · rw [runH_frame ops (HVault.get h v).1 v (HVault.get h v).2
      (by show h.size < h.size + 1; omega) (by show h.size ≠ v.tuples; exact hne)]
    simp [HVault.get, listCopyAt, Heap.alloc, Heap.read]
  · rw [runH_frame ops (HVault.get_and_clear h v).1 v (HVault.get_and_clear h v).2
      (by show h.size < h.size + 1; omega) (by show h.size ≠ v.tuples; exact hne)]
    simp [HVault.get_and_clear, listClearAt, listCopyAt, Heap.alloc,
      Heap.write, Heap.read, hne]
  · simp [HVault.get, listCopyAt, Heap.alloc, Heap.write, Heap.read,
      Ne.symm hne]
  · simp [HVault.get_and_clear, listClearAt, listCopyAt, Heap.alloc,
      Heap.write, Heap.read, Ne.symm hne]
  · intro r hr
    show h.size ≠ r
    omega

/-- Concrete vault object used in the amended C4's witness. -/
def wV : HVault := ⟨0⟩

/-- Concrete snapshot overwrite used in the amended C4's witness. -/
def wL : List Vault.Entry := [eB]

/-- Concrete history of subsequent vault calls used in the amended C4's
witness. -/
def wOps : List HOp :=
  [HOp.append eA, HOp.extend [eB], HOp.get_and_clear, HOp.get]

/-- Concrete run of the amended C4 on a one-object heap, with a nonempty
history of subsequent vault calls and a nonempty snapshot overwrite. -/
theorem C4_snapshot_disconnected_witness :
    wV.tuples < callerHeap.size ∧
    (((HVault.get callerHeap wV).2 ≠ wV.tuples ∧
      (HVault.get_and_clear callerHeap wV).2 ≠ wV.tuples) ∧
     Heap.read (HVault.get callerHeap wV).1 (HVault.get callerHeap wV).2 =
       Heap.read callerHeap wV.tuples ∧
     (Heap.read (HVault.get_and_clear callerHeap wV).1
         (HVault.get_and_clear callerHeap wV).2 =
         Heap.read callerHeap wV.tuples ∧
       Heap.read (HVault.get_and_clear callerHeap wV).1 wV.tuples = []) ∧
     Heap.read (runH (HVault.get callerHeap wV).1 wV wOps)
       (HVault.get callerHeap wV).2 = Heap.read callerHeap wV.tuples ∧
     Heap.read (runH (HVault.get_and_clear callerHeap wV).1 wV wOps)
       (HVault.get_and_clear callerHeap wV).2 = Heap.read callerHeap wV.tuples ∧
     Heap.read (Heap.write (HVault.get callerHeap wV).1
       (HVault.get callerHeap wV).2 wL) wV.tuples =
       Heap.read callerHeap wV.tuples ∧
     Heap.read (Heap.write (HVault.get_and_clear callerHeap wV).1
       (HVault.get_and_clear callerHeap wV).2 wL) wV.tuples =
       Heap.read (HVault.get_and_clear callerHeap wV).1 wV.tuples ∧
     (∀ r, r < callerHeap.size → (HVault.init callerHeap none).2.tuples ≠ r)) :=
  ⟨by decide, C4_snapshot_disconnected callerHeap wV wL wOps (by decide)⟩

/-- One operation of an append/drain history on a single vault.  Because
every method body runs entirely under the vault's lock, each operation is one
atomic step; an execution is a sequence of such steps. -/
inductive TraceOp where
  | append (e : Vault.Entry)
  | get_and_clear

/-- The vault's sequence together with the snapshots returned by the
`get_and_clear` calls performed so far, in order. -/
structure TraceState where
  vault : Vault.State
  results : List (List Vault.Entry)

/-- Execute one atomic operation. -/
def stepTrace (s : TraceState) : TraceOp → TraceState
  | .append e => ⟨Vault.append s.vault e, s.results⟩
  | .get_and_clear =>
    ⟨(Vault.get_and_clear s.vault).2, s.results ++ [(Vault.get_and_clear s.vault).1]⟩

/-- Execute a history of atomic operations in order. -/
def runTrace (s : TraceState) (ops : List TraceOp) : TraceState :=
  ops.foldl stepTrace s

/-- The entries appended over a history, in order. -/
def traceAppended : List TraceOp → List Vault.Entry
  | [] => []
  | .append e :: rest => e :: traceAppended rest
  | .get_and_clear :: rest => traceAppended rest

/-- Drain conservation: over any history of atomic `append` and
`get_and_clear` steps, the entries of all drain results followed by the final
vault contents are exactly the initial results and vault contents followed by
every appended entry — each appended entry ends up in exactly one
`get_and_clear` result or remains in the vault, never duplicated and never
lost. -/
theorem drain_conservation (ops : List TraceOp) (s : TraceState) :
    (runTrace s ops).results.flatten ++ (runTrace s ops).vault =
      s.results.flatten ++ s.vault ++ traceAppended ops := by
  induction ops generalizing s with
  | nil => simp [runTrace, traceAppended]
  | cons op rest ih =>
    cases op with
    | append e =>
      have h : runTrace s (TraceOp.append e :: rest) =
          runTrace (stepTrace s (TraceOp.append e)) rest := rfl
      rw [h, ih]
      simp [stepTrace, traceAppended, Vault.append]
    | get_and_clear =>
      have h : runTrace s (TraceOp.get_and_clear :: rest) =
          runTrace (stepTrace s TraceOp.get_and_clear) rest := rfl
      rw [h, ih]
      simp [stepTrace, traceAppended, Vault.get_and_clear]
